import Mathlib

/-
Verification of the flashcard question parser (question-parser.py) and the
flashcard loader (flashcards.py).

Python strings are modelled as `List Char`.  The parser works line by line;
`splitlines`, `stripChars` and the two anchored regular expressions
QUESTION_RE = ^(\d+)\.\s*(.*)$ and CHOICE_RE = ^(\*?)([a-zA-Z])\.\s*(.*)$
are embedded directly.  Whitespace and digit classes are modelled at their
ASCII core (the source's Unicode classes coincide with these on all inputs
considered here).
-/

set_option maxHeartbeats 2000000

namespace Flashcards

/-- Whitespace as stripped by Python `str.strip()` and matched by `\s`
(ASCII core: space, tab, newline, carriage return, vertical tab, form feed). -/
def isWS (c : Char) : Bool :=
  c = ' ' || c = '\t' || c = '\n' || c = '\r' || c = Char.ofNat 11 || c = Char.ofNat 12

/-- Model of Python `str.strip()`: drop leading and trailing whitespace. -/
def stripChars (l : List Char) : List Char :=
  ((l.dropWhile isWS).reverse.dropWhile isWS).reverse

/-- Characters treated as line boundaries by Python `str.splitlines`. -/
def isLineBreak (c : Char) : Bool :=
  c = '\n' || c = '\r' || c = Char.ofNat 11 || c = Char.ofNat 12 ||
  c = Char.ofNat 28 || c = Char.ofNat 29 || c = Char.ofNat 30 ||
  c = Char.ofNat 133 || c = Char.ofNat 8232 || c = Char.ofNat 8233

/-- Accumulator worker for `splitlines`; a "\r\n" pair is one boundary. -/
def splitlinesAux : List Char → List Char → List (List Char)
  | [], acc => if acc.isEmpty then [] else [acc.reverse]
  | '\r' :: '\n' :: rest, acc => acc.reverse :: splitlinesAux rest []
  | c :: rest, acc =>
      if isLineBreak c then acc.reverse :: splitlinesAux rest []
      else splitlinesAux rest (c :: acc)

/-- Model of Python `str.splitlines` (no trailing empty line after a final
line boundary). -/
def splitlines (text : List Char) : List (List Char) :=
  splitlinesAux text []

/-- Model of Python `ln.rstrip("\n")` as applied to each split line
(source line 26). -/
def rstripNewline (l : List Char) : List Char :=
  (l.reverse.dropWhile (fun c => c = '\n')).reverse

/-- Model of QUESTION_RE = `^(\d+)\.\s*(.*)$` applied to a whole line:
on success returns (group 1 = the digit run, group 2 = the text after the
dot and any following whitespace). -/
def matchQuestion (s : List Char) : Option (List Char × List Char) :=
  let digits := s.takeWhile Char.isDigit
  if digits.isEmpty then none
  else
    match s.dropWhile Char.isDigit with
    | '.' :: tail => some (digits, tail.dropWhile isWS)
    | _ => none

/-- Model of CHOICE_RE = `^(\*?)([a-zA-Z])\.\s*(.*)$` applied to a whole
line: on success returns (group 1 nonempty as Bool, group 2 = the letter as a
one-character string, group 3 = the text after the dot and any following
whitespace).  As with the backtracking regex, a leading `*` commits to the
starred alternative, and the star-absent alternative needs a leading letter. -/
def matchChoice (s : List Char) : Option (Bool × List Char × List Char) :=
  match s with
  | '*' :: c :: '.' :: tail =>
      if c.isAlpha then some (true, [c], tail.dropWhile isWS) else none
  | c :: '.' :: tail =>
      if c.isAlpha then some (false, [c], tail.dropWhile isWS) else none
  | _ => none

/-- One answer option: the dict `{"letter": ..., "text": ...}` built at
source lines 68-71. -/
structure Choice where
  letter : List Char
  text : List Char
deriving DecidableEq, Repr

/-- One parsed question: the dict built at source lines 49-56. -/
structure Question where
  id : List Char
  source_file : List Char
  question : List Char
  choices : List Choice
  correct_letter : Option (List Char)
  correct_index : Option Nat
deriving DecidableEq, Repr

/-- The `last_type` variable of the parsing loop: None, "question" or
"choice". -/
inductive LastKind where
  | start
  | question
  | choice
deriving DecidableEq, Repr

/-- The mutable state of the parsing loop: `questions`, `current`,
`last_type` (source lines 28-30). -/
structure PState where
  questions : List Question
  current : Option Question
  last_type : LastKind
deriving DecidableEq, Repr

/-- In-place update of the last list element's text, modelling
`current["choices"][-1]["text"] += " " + stripped` (source line 87). -/
def appendLastText : List Choice → List Char → List Choice
  | [], _ => []
  | [c], s => [{ c with text := c.text ++ ' ' :: s }]
  | c :: c2 :: t, s => c :: appendLastText (c2 :: t) s

/-- The continuation branch of the loop body (source lines 80-87): reached
when the stripped line is non-blank and matched neither pattern, and also
when a choice line arrives with no open record. -/
def contStep (st : PState) (stripped : List Char) : PState :=
  match st.current with
  | none => st
  | some cur =>
      match st.last_type with
      | .question =>
          { st with current := some { cur with question := cur.question ++ ' ' :: stripped } }
      | .choice =>
          if cur.choices.isEmpty then st
          else { st with current := some { cur with choices := appendLastText cur.choices stripped } }
      | .start => st

/-- The body of the `for line in lines` loop (source lines 32-87). -/
def processLine (stem fname : List Char) (st : PState) (line : List Char) : PState :=
  let stripped := stripChars line
  if stripped.isEmpty then st
  else
    match matchQuestion stripped with
    | some (num, g2) =>
        let qs := match st.current with
          | some cur => st.questions ++ [cur]
          | none => st.questions
        { questions := qs,
          current := some
            { id := stem ++ '_' :: num,
              source_file := fname,
              question := stripChars g2,
              choices := [],
              correct_letter := none,
              correct_index := none },
          last_type := .question }
    | none =>
        match matchChoice stripped with
        | some (star, g2, g3) =>
            match st.current with
            | some cur =>
                let letter := g2.map Char.toLower
                let textPart := stripChars g3
                let idx := cur.choices.length
                { st with
                  current := some
                    { cur with
                      choices := cur.choices ++ [⟨letter, textPart⟩],
                      correct_letter := if star then some letter else cur.correct_letter,
                      correct_index := if star then some idx else cur.correct_index },
                  last_type := .choice }
            | none => contStep st stripped
        | none => contStep st stripped

/-- Initial loop state: empty output, no open record, `last_type = None`. -/
def initState : PState :=
  { questions := [], current := none, last_type := .start }

/-- The loop over the split lines plus the end-of-input finalization
(source lines 32-91). -/
def parse_question_lines (stem fname : List Char) (lines : List (List Char)) : List Question :=
  let final := lines.foldl (processLine stem fname) initState
  match final.current with
  | some cur => final.questions ++ [cur]
  | none => final.questions

/-- `parse_question_file` on the decoded text of the file (the utf-8 /
cp1252 decode of source lines 22-25 yields this text); `path.stem` and
`path.name` are passed as `stem` and `fname`. -/
def parse_question_file (stem fname text : List Char) : List Question :=
  parse_question_lines stem fname ((splitlines text).map rstripNewline)

/-! JSON serialization (save_questions_to_json) and the flashcards.py
loader (load_cards_from_json), modelled at the JSON-value level: `json.dump`
followed by `json.load` is the identity on this value tree, so the textual
encoding step is the identity here. -/

/-- JSON values as produced by `json.dump` / consumed by `json.load`. -/
inductive Json where
  | null
  | str (s : List Char)
  | num (n : Int)
  | arr (xs : List Json)
  | obj (fields : List (List Char × Json))

def kId : List Char := ['i', 'd']
def kSourceFile : List Char := ['s', 'o', 'u', 'r', 'c', 'e', '_', 'f', 'i', 'l', 'e']
def kQuestion : List Char := ['q', 'u', 'e', 's', 't', 'i', 'o', 'n']
def kChoices : List Char := ['c', 'h', 'o', 'i', 'c', 'e', 's']
def kCorrectLetter : List Char := ['c', 'o', 'r', 'r', 'e', 'c', 't', '_', 'l', 'e', 't', 't', 'e', 'r']
def kCorrectIndex : List Char := ['c', 'o', 'r', 'r', 'e', 'c', 't', '_', 'i', 'n', 'd', 'e', 'x']
def kLetter : List Char := ['l', 'e', 't', 't', 'e', 'r']
def kText : List Char := ['t', 'e', 'x', 't']

/-- JSON image of one choice dict. -/
def choiceToJson (ch : Choice) : Json :=
  .obj [(kLetter, .str ch.letter), (kText, .str ch.text)]

/-- JSON image of one question dict; `None` serializes as null. -/
def questionToJson (q : Question) : Json :=
  .obj [ (kId, .str q.id),
         (kSourceFile, .str q.source_file),
         (kQuestion, .str q.question),
         (kChoices, .arr (q.choices.map choiceToJson)),
         (kCorrectLetter, match q.correct_letter with | none => .null | some l => .str l),
         (kCorrectIndex, match q.correct_index with | none => .null | some i => .num i) ]

/-- save_questions_to_json (question-parser.py lines 127-133) at the
JSON-value level: the document written is the array of question dicts. -/
def save_questions_to_json (qs : List Question) : Json :=
  .arr (qs.map questionToJson)

/-- One card as built by the loader (flashcards.py lines 46-53); `id` and
`source_file` come from `raw.get` and so may be absent. -/
structure Card where
  id : Option (List Char)
  source_file : Option (List Char)
  question : List Char
  choices : List Choice
  correct_letter : Option (List Char)
  correct_index : Option Nat
deriving DecidableEq, Repr

/-- Dictionary field lookup, modelling `raw.get(k)` on a decoded JSON
object (keys in serialized corpora are unique, so the first match is the
match). -/
def jget (fields : List (List Char × Json)) (k : List Char) : Option Json :=
  (fields.find? (fun p => p.1 == k)).map (fun p => p.2)

/-- Model of `(d.get(k) or "")` flowing into a string operation: a missing
key or null gives "", a string gives itself; any other shape in that slot
makes the source raise, modelled as `none` (no other shape occurs in a
serialized corpus). -/
def getStrOrEmpty (fields : List (List Char × Json)) (k : List Char) : Option (List Char) :=
  match jget fields k with
  | none => some []
  | some .null => some []
  | some (.str s) => some s
  | some _ => none

/-- Model of `d.get(k, "")` flowing into a string operation: a missing key
gives the default "", a string gives itself; any other shape (including
null) makes the source raise, modelled as `none`. -/
def getStrDefault (fields : List (List Char × Json)) (k : List Char) : Option (List Char) :=
  match jget fields k with
  | none => some []
  | some (.str s) => some s
  | some _ => none

/-- One iteration of the choice-normalization loop (flashcards.py lines
31-36): outer `none` models an exception, inner `none` a skipped choice. -/
def loadChoice (j : Json) : Option (Option Choice) :=
  match j with
  | .obj fs =>
      match getStrOrEmpty fs kLetter, getStrOrEmpty fs kText with
      | some lraw, some traw =>
          let letter := lraw.map Char.toLower
          let text := stripChars traw
          if letter.isEmpty || text.isEmpty then some none
          else some (some { letter := letter, text := text })
      | _, _ => none
  | _ => none

/-- The choice-normalization loop over the raw choice list. -/
def loadChoices : List Json → Option (List Choice)
  | [] => some []
  | j :: t =>
      match loadChoice j, loadChoices t with
      | some none, some cs => some cs
      | some (some c), some cs => some (c :: cs)
      | _, _ => none

/-- Lookup in the `letter_to_index` dict comprehension of flashcards.py
line 43: the comprehension writes ascending indices, so a duplicated letter
resolves to its last occurrence. -/
def lastIndexOfLetter (cs : List Choice) (l : List Char) : Option Nat :=
  match cs with
  | [] => none
  | c :: t =>
      match lastIndexOfLetter t l with
      | some j => some (j + 1)
      | none => if c.letter == l then some 0 else none

/-- One iteration of the card loop (flashcards.py lines 20-54): outer
`none` models an exception, inner `none` a skipped card.  `id` and
`source_file` are read with `raw.get`; in serialized corpora those slots
are strings, and other shapes are modelled as absent. -/
def loadCard (j : Json) : Option (Option Card) :=
  match j with
  | .obj fs =>
      match getStrDefault fs kQuestion, getStrOrEmpty fs kCorrectLetter with
      | some qraw, some clraw =>
          let question := stripChars qraw
          let choicesList : Option (List Json) :=
            match jget fs kChoices with
            | none => some []
            | some .null => some []
            | some (.arr xs) => some xs
            | some _ => none
          match choicesList with
          | none => none
          | some choices =>
              let low := clraw.map Char.toLower
              let correct_letter := if low.isEmpty then none else some low
              if question.isEmpty || choices.isEmpty then some none
              else
                match loadChoices choices with
                | none => none
                | some norm =>
                    if norm.isEmpty then some none
                    else
                      let correct_index :=
                        match correct_letter with
                        | none => none
                        | some l => lastIndexOfLetter norm l
                      let idv : Option (List Char) :=
                        match jget fs kId with
                        | some (.str s) => some s
                        | _ => none
                      let sfv : Option (List Char) :=
                        match jget fs kSourceFile with
                        | some (.str s) => some s
                        | _ => none
                      some (some { id := idv, source_file := sfv, question := question,
                                   choices := norm, correct_letter := correct_letter,
                                   correct_index := correct_index })
      | _, _ => none
  | _ => none

/-- The card loop over the decoded document's entries. -/
def loadCards : List Json → Option (List Card)
  | [] => some []
  | j :: t =>
      match loadCard j, loadCards t with
      | some none, some cs => some cs
      | some (some c), some cs => some (c :: cs)
      | _, _ => none

/-- load_cards_from_json on the decoded JSON document (flashcards.py lines
13-60); `none` models the raised errors: a non-list document, an exception
in a loop body, or the final "No valid cards" ValueError. -/
def load_cards_from_json (j : Json) : Option (List Card) :=
  match j with
  | .arr xs =>
      match loadCards xs with
      | none => none
      | some cards => if cards.isEmpty then none else some cards
  | _ => none

/-- Field-for-field image of a parsed record in the loader's card shape. -/
def cardOfQuestion (q : Question) : Card :=
  { id := some q.id, source_file := some q.source_file, question := q.question,
    choices := q.choices, correct_letter := q.correct_letter,
    correct_index := q.correct_index }

/-! Predicates used in the statements of the claims. -/

/-- A character list with no leading and no trailing whitespace (a
fixed point of `stripChars`). -/
def Trimmed (l : List Char) : Prop :=
  l.dropWhile isWS = l ∧ l.reverse.dropWhile isWS = l.reverse

instance (l : List Char) : Decidable (Trimmed l) := by
  unfold Trimmed; infer_instance

/-- Text fit to be the payload of one source line: nonempty, free of
line-boundary characters, and trimmed. -/
def LineText (l : List Char) : Prop :=
  l ≠ [] ∧ (∀ c ∈ l, isLineBreak c = false) ∧ Trimmed l

instance (l : List Char) : Decidable (LineText l) := by
  unfold LineText; infer_instance

/-- Default choice used with `List.getD`. -/
def defaultChoice : Choice :=
  { letter := [], text := [] }

/-- The correct_letter / correct_index consistency property of one record:
a present index is in range and addresses a choice carrying exactly the
letter stored in correct_letter. -/
def QInv (q : Question) : Prop :=
  ∀ i, q.correct_index = some i →
    i < q.choices.length ∧ q.correct_letter = some ((q.choices.getD i defaultChoice).letter)

/-- The consistency property lifted to the loop state: it holds for every
finalized record and for the open record if there is one. -/
def SInv (st : PState) : Prop :=
  (∀ q ∈ st.questions, QInv q) ∧ ∀ cur, st.current = some cur → QInv cur

/-- The header number captured from a line, if the line is classified as a
question header. -/
def headerNum (l : List Char) : Option (List Char) :=
  (matchQuestion (stripChars l)).map Prod.fst

/-- Well-formedness of a choice for the deserialization round trip: a
nonempty already-lowercase letter and a nonempty trimmed text. -/
def wfChoice (ch : Choice) : Bool :=
  !ch.letter.isEmpty && (ch.letter.map Char.toLower == ch.letter) &&
  !ch.text.isEmpty && (stripChars ch.text == ch.text)

/-- Well-formedness of the correctness marking for the round trip: absent
together, or the index is in range and addresses the stored letter. -/
def wfCorrect (q : Question) : Bool :=
  match q.correct_index, q.correct_letter with
  | none, none => true
  | some i, some l =>
      decide (i < q.choices.length) && ((q.choices.getD i defaultChoice).letter == l)
  | _, _ => false

/-- Well-formedness of one record for the deserialization round trip. -/
def wfQuestion (q : Question) : Bool :=
  !q.question.isEmpty && (stripChars q.question == q.question) &&
  !q.choices.isEmpty && q.choices.all wfChoice &&
  decide ((q.choices.map (fun ch => ch.letter)).Nodup) && wfCorrect q

/-! Basic facts about dropWhile, stripping and trimmed text. -/

theorem length_dropWhile_le (p : Char → Bool) (l : List Char) :
    (l.dropWhile p).length ≤ l.length := by
  induction l with
  | nil => simp
  | cons a t ih =>
      rw [List.dropWhile_cons]
      split
      · exact Nat.le_succ_of_le ih
      · exact Nat.le_refl _

theorem dropWhile_cons_false {p : Char → Bool} {c : Char} (l : List Char) (hc : p c = false) :
    (c :: l).dropWhile p = c :: l := by
  rw [List.dropWhile_cons, hc]
  simp

theorem head_false_of_dropWhile_eq {p : Char → Bool} {c : Char} {l : List Char}
    (h : (c :: l).dropWhile p = c :: l) : p c = false := by
  by_contra hne
  have hp : p c = true := by
    cases hcv : p c
    · exact absurd hcv hne
    · rfl
  rw [List.dropWhile_cons, hp] at h
  simp only [if_pos] at h
  have hlen := length_dropWhile_le p l
  rw [h] at hlen
  simp at hlen

theorem dropWhile_eq_self_of_all {p : Char → Bool} {l : List Char}
    (h : ∀ c ∈ l, p c = false) : l.dropWhile p = l := by
  cases l with
  | nil => rfl
  | cons a t => exact dropWhile_cons_false t (h a (List.mem_cons_self a t))

theorem stripChars_eq_self {l : List Char} (h : Trimmed l) : stripChars l = l := by
  unfold stripChars
  rw [h.1, h.2, List.reverse_reverse]

theorem trimmed_reverse_head {T : List Char} (h : Trimmed T) (hne : T ≠ []) :
    ∃ d t, T.reverse = d :: t ∧ isWS d = false := by
  cases hr : T.reverse with
  | nil =>
      exact absurd (List.reverse_eq_nil_iff.mp hr) hne
  | cons d t =>
      refine ⟨d, t, rfl, ?_⟩
      have h2 := h.2
      rw [hr] at h2
      exact head_false_of_dropWhile_eq h2

theorem trimmed_cons_append (c : Char) (mid T : List Char)
    (hc : isWS c = false) (hT : Trimmed T) (hne : T ≠ []) :
    Trimmed (c :: (mid ++ T)) := by
  constructor
  · exact dropWhile_cons_false _ hc
  · obtain ⟨d, t, hdt, hd⟩ := trimmed_reverse_head hT hne
    rw [List.reverse_cons, List.reverse_append, hdt, List.cons_append, List.cons_append]
    exact dropWhile_cons_false _ hd

theorem strip_line (c : Char) (mid T : List Char)
    (hc : isWS c = false) (hT : Trimmed T) (hne : T ≠ []) :
    stripChars (c :: (mid ++ T)) = c :: (mid ++ T) :=
  stripChars_eq_self (trimmed_cons_append c mid T hc hT hne)

theorem dropWhile_space_trimmed {T : List Char} (hT : Trimmed T) :
    (' ' :: T).dropWhile isWS = T := by
  rw [List.dropWhile_cons]
  simp only [show isWS ' ' = true from rfl, if_pos]
  exact hT.1

/-! Reduction lemmas for splitlines. -/

theorem splitlinesAux_nil (acc : List Char) :
    splitlinesAux [] acc = if acc.isEmpty then [] else [acc.reverse] := rfl

theorem splitlinesAux_lf (rest acc : List Char) :
    splitlinesAux ('\n' :: rest) acc = acc.reverse :: splitlinesAux rest [] := by
  rw [splitlinesAux.eq_def]
  split
  next heq => exact absurd heq (by simp)
  next h =>
    injection h with h1 _
    exact absurd h1 (by decide)
  next heq =>
    injection heq with h1 h2
    subst h1
    subst h2
    rw [if_pos (by decide)]

theorem splitlinesAux_notbreak (c : Char) (rest acc : List Char) (hc : isLineBreak c = false) :
    splitlinesAux (c :: rest) acc = splitlinesAux rest (c :: acc) := by
  rw [splitlinesAux.eq_def]
  split
  next heq => exact absurd heq (by simp)
  next h =>
    injection h with h1 _
    subst h1
    exact absurd hc (by decide)
  next heq =>
    injection heq with h1 h2
    subst h1
    subst h2
    rw [if_neg (by simp [hc])]

theorem splitlinesAux_line (l : List Char) (h : ∀ c ∈ l, isLineBreak c = false) :
    ∀ acc rest, splitlinesAux (l ++ '\n' :: rest) acc = (acc.reverse ++ l) :: splitlinesAux rest [] := by
  induction l with
  | nil =>
      intro acc rest
      rw [List.nil_append, splitlinesAux_lf, List.append_nil]
  | cons c l' ih =>
      intro acc rest
      have hc : isLineBreak c = false := h c (List.mem_cons_self c l')
      rw [List.cons_append, splitlinesAux_notbreak c _ acc hc,
        ih (fun d hd => h d (List.mem_cons_of_mem c hd)) (c :: acc) rest,
        List.reverse_cons, List.append_assoc, List.singleton_append]

theorem splitlines_line (l rest : List Char) (h : ∀ c ∈ l, isLineBreak c = false) :
    splitlines (l ++ '\n' :: rest) = l :: splitlines rest := by
  unfold splitlines
  rw [splitlinesAux_line l h [] rest]
  rfl

theorem splitlines_nil : splitlines [] = [] := rfl

theorem rstripNewline_eq_self {l : List Char} (h : ∀ c ∈ l, isLineBreak c = false) :
    rstripNewline l = l := by
  unfold rstripNewline
  rw [dropWhile_eq_self_of_all, List.reverse_reverse]
  intro c hc
  have hcl := h c (List.mem_reverse.mp hc)
  cases hcn : (c = '\n' : Bool)
  · rfl
  · exfalso
    have : c = '\n' := by
      have := of_decide_eq_true hcn
      exact this
    subst this
    exact absurd hcl (by decide)

/-! Reduction lemmas for the two line patterns. -/

theorem matchQuestion_nil : matchQuestion [] = none := rfl

theorem matchQuestion_nondigit {c : Char} (l : List Char) (hc : Char.isDigit c = false) :
    matchQuestion (c :: l) = none := by
  unfold matchQuestion
  rw [List.takeWhile_cons, hc]
  simp

theorem takeWhile_digits_dot (ds tail : List Char) (h : ∀ c ∈ ds, Char.isDigit c = true) :
    (ds ++ '.' :: tail).takeWhile Char.isDigit = ds ∧
      (ds ++ '.' :: tail).dropWhile Char.isDigit = '.' :: tail := by
  induction ds with
  | nil =>
      constructor
      · rw [List.nil_append, List.takeWhile_cons]
        simp
      · rw [List.nil_append, List.dropWhile_cons]
        simp
  | cons d ds' ih =>
      have hd : Char.isDigit d = true := h d (List.mem_cons_self d ds')
      obtain ⟨ih1, ih2⟩ := ih (fun c hc => h c (List.mem_cons_of_mem d hc))
      constructor
      · rw [List.cons_append, List.takeWhile_cons, hd]
        simp only [if_pos]
        rw [ih1]
      · rw [List.cons_append, List.dropWhile_cons, hd]
        simp only [if_pos]
        rw [ih2]

theorem matchQuestion_header (ds tail : List Char) (hne : ds ≠ [])
    (h : ∀ c ∈ ds, Char.isDigit c = true) :
    matchQuestion (ds ++ '.' :: tail) = some (ds, tail.dropWhile isWS) := by
  obtain ⟨h1, h2⟩ := takeWhile_digits_dot ds tail h
  unfold matchQuestion
  rw [h1, h2]
  simp [hne]

theorem matchQuestion_some_ne_nil {s num g2 : List Char}
    (h : matchQuestion s = some (num, g2)) : s.isEmpty = false := by
  cases s with
  | nil => exact absurd h (by simp [matchQuestion])
  | cons a t => rfl

theorem matchChoice_some_ne_nil {s : List Char} {star : Bool} {g2 g3 : List Char}
    (h : matchChoice s = some (star, g2, g3)) : s.isEmpty = false := by
  cases s with
  | nil => exact absurd h (by simp [matchChoice])
  | cons a t => rfl

/-! Rewrite lemmas for one loop iteration. -/

theorem processLine_blank {stem fname : List Char} {st : PState} {line : List Char}
    (hs : stripChars line = []) : processLine stem fname st line = st := by
  simp [processLine, hs]

theorem processLine_header {stem fname : List Char} {st : PState} {line num g2 : List Char}
    (hm : matchQuestion (stripChars line) = some (num, g2)) :
    processLine stem fname st line =
      { questions := st.questions ++ st.current.toList,
        current := some
          { id := stem ++ '_' :: num, source_file := fname, question := stripChars g2,
            choices := [], correct_letter := none, correct_index := none },
        last_type := .question } := by
  have hne := matchQuestion_some_ne_nil hm
  cases hcur : st.current with
  | none => simp [processLine, hne, hm, hcur, Option.toList]
  | some cur => simp [processLine, hne, hm, hcur, Option.toList]

theorem processLine_choiceStep {stem fname : List Char} {st : PState} {line : List Char}
    {star : Bool} {g2 g3 : List Char} {cur : Question}
    (hmq : matchQuestion (stripChars line) = none)
    (hmc : matchChoice (stripChars line) = some (star, g2, g3))
    (hcur : st.current = some cur) :
    processLine stem fname st line =
      { st with
        current := some
          { cur with
            choices := cur.choices ++ [⟨g2.map Char.toLower, stripChars g3⟩],
            correct_letter := if star then some (g2.map Char.toLower) else cur.correct_letter,
            correct_index := if star then some cur.choices.length else cur.correct_index },
        last_type := .choice } := by
  have hne := matchChoice_some_ne_nil hmc
  simp [processLine, hne, hmq, hmc, hcur]

theorem processLine_cont {stem fname : List Char} {st : PState} {line : List Char}
    (hne : (stripChars line).isEmpty = false)
    (hmq : matchQuestion (stripChars line) = none)
    (hmc : matchChoice (stripChars line) = none) :
    processLine stem fname st line = contStep st (stripChars line) := by
  simp [processLine, hne, hmq, hmc]

theorem processLine_orphanChoice {stem fname : List Char} {st : PState} {line : List Char}
    {star : Bool} {g2 g3 : List Char}
    (hmq : matchQuestion (stripChars line) = none)
    (hmc : matchChoice (stripChars line) = some (star, g2, g3))
    (hcur : st.current = none) :
    processLine stem fname st line = st := by
  have hne := matchChoice_some_ne_nil hmc
  simp [processLine, hne, hmq, hmc, hcur, contStep]

theorem contStep_no_current {st : PState} {s : List Char} (hcur : st.current = none) :
    contStep st s = st := by
  simp [contStep, hcur]

/-! Structure-preservation facts about the continuation append. -/

theorem appendLastText_length (cs : List Choice) (s : List Char) :
    (appendLastText cs s).length = cs.length := by
  induction cs with
  | nil => rfl
  | cons c t ih =>
      cases t with
      | nil => rfl
      | cons c2 t2 =>
          show (c :: appendLastText (c2 :: t2) s).length = (c :: c2 :: t2).length
          simp only [List.length_cons, ih]

theorem appendLastText_letter (cs : List Choice) (s : List Char) (i : Nat) :
    ((appendLastText cs s).getD i defaultChoice).letter = (cs.getD i defaultChoice).letter := by
  induction cs generalizing i with
  | nil => rfl
  | cons c t ih =>
      cases t with
      | nil =>
          cases i with
          | zero => rfl
          | succ j => rfl
      | cons c2 t2 =>
          cases i with
          | zero => rfl
          | succ j =>
              show ((appendLastText (c2 :: t2) s).getD j defaultChoice).letter
                  = ((c2 :: t2).getD j defaultChoice).letter
              exact ih j

theorem appendLastText_mem {cs : List Choice} {s : List Char} {ch : Choice}
    (h : ch ∈ appendLastText cs s) : ∃ ch', ch' ∈ cs ∧ ch.letter = ch'.letter := by
  induction cs with
  | nil => cases h
  | cons c t ih =>
      cases t with
      | nil =>
          have h' : ch = { c with text := c.text ++ ' ' :: s } := by
            simpa [appendLastText] using h
          exact ⟨c, List.mem_cons_self c [], by rw [h']⟩
      | cons c2 t2 =>
          rcases List.mem_cons.mp h with h' | h'
          · exact ⟨c, List.mem_cons_self _ _, by rw [h']⟩
          · obtain ⟨ch', hch', hl⟩ := ih h'
            exact ⟨ch', List.mem_cons_of_mem c hch', hl⟩

theorem appendLastText_concat (cs : List Choice) (lastc : Choice) (s : List Char) :
    appendLastText (cs ++ [lastc]) s = cs ++ [{ lastc with text := lastc.text ++ ' ' :: s }] := by
  induction cs with
  | nil => rfl
  | cons c t ih =>
      cases hc : t ++ [lastc] with
      | nil => exact absurd hc (by simp)
      | cons d u =>
          have step : appendLastText (c :: t ++ [lastc]) s = c :: appendLastText (t ++ [lastc]) s := by
            rw [List.cons_append, hc]
            rfl
          rw [step, ih]
          rfl

/-! The correct_letter / correct_index consistency invariant (claim C2). -/

theorem qinv_fresh (idv sf qt : List Char) :
    QInv { id := idv, source_file := sf, question := qt, choices := [],
           correct_letter := none, correct_index := none } := by
  intro i hi
  cases hi

theorem sinv_init : SInv initState := by
  constructor
  · intro q hq
    cases hq
  · intro cur hcur
    cases hcur

theorem contStep_question {st : PState} {cur : Question} {s : List Char}
    (hcur : st.current = some cur) (hlt : st.last_type = .question) :
    contStep st s = { st with current := some { cur with question := cur.question ++ ' ' :: s } } := by
  simp [contStep, hcur, hlt]

theorem contStep_choice {st : PState} {cur : Question} {s : List Char}
    (hcur : st.current = some cur) (hlt : st.last_type = .choice) :
    contStep st s =
      if cur.choices.isEmpty then st
      else { st with current := some { cur with choices := appendLastText cur.choices s } } := by
  simp [contStep, hcur, hlt]

theorem contStep_start {st : PState} {cur : Question} {s : List Char}
    (hcur : st.current = some cur) (hlt : st.last_type = .start) :
    contStep st s = st := by
  simp [contStep, hcur, hlt]

theorem qinv_contStep {st : PState} {s : List Char} (h : SInv st) : SInv (contStep st s) := by
  cases hcur : st.current with
  | none =>
      rw [contStep_no_current hcur]
      exact h
  | some cur =>
      cases hlt : st.last_type with
      | start =>
          rw [contStep_start hcur hlt]
          exact h
      | question =>
          rw [contStep_question hcur hlt]
          refine ⟨h.1, ?_⟩
          intro cur' hcur'
          injection hcur' with he
          subst he
          intro i hi
          exact h.2 cur hcur i hi
      | choice =>
          rw [contStep_choice hcur hlt]
          cases hemp : cur.choices.isEmpty with
          | true =>
              rw [if_pos rfl]
              exact h
          | false =>
              rw [if_neg (by simp)]
              refine ⟨h.1, ?_⟩
              intro cur' hcur'
              injection hcur' with he
              subst he
              intro i hi
              obtain ⟨hlen, hlet⟩ := h.2 cur hcur i hi
              refine ⟨?_, ?_⟩
              · rw [appendLastText_length]
                exact hlen
              · rw [appendLastText_letter]
                exact hlet

theorem sinv_processLine (stem fname : List Char) (st : PState) (line : List Char)
    (h : SInv st) : SInv (processLine stem fname st line) := by
  cases hemp : (stripChars line).isEmpty with
  | true =>
      rw [processLine_blank (List.isEmpty_iff.mp hemp)]
      exact h
  | false =>
      cases hmq : matchQuestion (stripChars line) with
      | some v =>
          obtain ⟨num, g2⟩ := v
          rw [processLine_header hmq]
          constructor
          · intro q hq
            rcases List.mem_append.mp hq with hq' | hq'
            · exact h.1 q hq'
            · cases hcur : st.current with
              | none => rw [hcur] at hq'; cases hq'
              | some cur =>
                  rw [hcur] at hq'
                  have he : q = cur := by simpa using hq'
                  subst he
                  exact h.2 q hcur
          · intro cur' hcur'
            injection hcur' with he
            subst he
            exact qinv_fresh _ _ _
      | none =>
          cases hmc : matchChoice (stripChars line) with
          | none =>
              rw [processLine_cont hemp hmq hmc]
              exact qinv_contStep h
          | some v =>
              obtain ⟨star, g2, g3⟩ := v
              cases hcur : st.current with
              | none =>
                  rw [processLine_orphanChoice hmq hmc hcur]
                  exact h
              | some cur =>
                  rw [processLine_choiceStep hmq hmc hcur]
                  refine ⟨h.1, ?_⟩
                  intro cur' hcur'
                  injection hcur' with he
                  subst he
                  intro i hi
                  cases star with
                  | true =>
                      rw [if_pos rfl] at hi ⊢
                      injection hi with hie
                      subst hie
                      refine ⟨by simp, ?_⟩
                      simp [List.getD_append_right]
                  | false =>
                      rw [if_neg (by simp)] at hi ⊢
                      obtain ⟨hlen, hlet⟩ := h.2 cur hcur i hi
                      refine ⟨?_, ?_⟩
                      · simp only [List.length_append, List.length_cons, List.length_nil]
                        omega
                      · rw [List.getD_append _ _ _ _ hlen]
                        exact hlet

theorem sinv_foldl (stem fname : List Char) (lines : List (List Char)) :
    SInv (lines.foldl (processLine stem fname) initState) := by
  suffices hgen : ∀ st, SInv st → SInv (lines.foldl (processLine stem fname) st) from
    hgen initState sinv_init
  induction lines with
  | nil => intro st h; exact h
  | cons l t ih =>
      intro st h
      rw [List.foldl_cons]
      exact ih _ (sinv_processLine stem fname st l h)

theorem parse_question_lines_eq (stem fname : List Char) (lines : List (List Char)) :
    parse_question_lines stem fname lines =
      (lines.foldl (processLine stem fname) initState).questions ++
        (lines.foldl (processLine stem fname) initState).current.toList := by
  simp only [parse_question_lines]
  cases hcur : (lines.foldl (processLine stem fname) initState).current with
  | none => simp
  | some cur => simp

theorem qinv_parse (stem fname : List Char) (lines : List (List Char)) :
    ∀ q ∈ parse_question_lines stem fname lines, QInv q := by
  intro q hq
  have hinv := sinv_foldl stem fname lines
  rw [parse_question_lines_eq] at hq
  rcases List.mem_append.mp hq with hq' | hq'
  · exact hinv.1 q hq'
  · cases hcur : (lines.foldl (processLine stem fname) initState).current with
    | none => rw [hcur] at hq'; cases hq'
    | some cur =>
        rw [hcur] at hq'
        have he : q = cur := by simpa using hq'
        subst he
        exact hinv.2 q hcur

/-! The record ids produced by a parse (claims C3 and C7). -/

/-- The ids held in a loop state, output records first, open record last. -/
def idsOf (st : PState) : List (List Char) :=
  st.questions.map (fun q => q.id) ++ st.current.toList.map (fun q => q.id)

theorem idsOf_processLine (stem fname : List Char) (st : PState) (line : List Char) :
    idsOf (processLine stem fname st line) =
      idsOf st ++ ((headerNum line).map (fun n => stem ++ '_' :: n)).toList := by
  cases hemp : (stripChars line).isEmpty with
  | true =>
      have hs := List.isEmpty_iff.mp hemp
      rw [processLine_blank hs]
      simp [headerNum, hs, matchQuestion_nil]
  | false =>
      cases hmq : matchQuestion (stripChars line) with
      | some v =>
          obtain ⟨num, g2⟩ := v
          rw [processLine_header hmq]
          simp [idsOf, headerNum, hmq]
      | none =>
          have hhn : headerNum line = none := by simp [headerNum, hmq]
          cases hmc : matchChoice (stripChars line) with
          | none =>
              rw [processLine_cont hemp hmq hmc, hhn]
              cases hcur : st.current with
              | none => rw [contStep_no_current hcur]; simp
              | some cur =>
                  cases hlt : st.last_type with
                  | start => rw [contStep_start hcur hlt]; simp
                  | question => rw [contStep_question hcur hlt]; simp [idsOf, hcur]
                  | choice =>
                      rw [contStep_choice hcur hlt]
                      cases hemp2 : cur.choices.isEmpty with
                      | true => rw [if_pos rfl]; simp
                      | false => rw [if_neg (by simp)]; simp [idsOf, hcur]
          | some v =>
              obtain ⟨star, g2, g3⟩ := v
              cases hcur : st.current with
              | none =>
                  rw [processLine_orphanChoice hmq hmc hcur, hhn]
                  simp
              | some cur =>
                  rw [processLine_choiceStep hmq hmc hcur, hhn]
                  simp [idsOf, hcur]

theorem idsOf_foldl (stem fname : List Char) (lines : List (List Char)) :
    ∀ st, idsOf (lines.foldl (processLine stem fname) st) =
      idsOf st ++ (lines.filterMap headerNum).map (fun n => stem ++ '_' :: n) := by
  induction lines with
  | nil => intro st; simp
  | cons l t ih =>
      intro st
      rw [List.foldl_cons, ih, idsOf_processLine, List.filterMap_cons]
      cases headerNum l with
      | none => simp
      | some n => simp

/-! Lowercase letters (claim C4). -/

theorem char_isLower_iff (c : Char) : c.isLower = true ↔ 97 ≤ c.toNat ∧ c.toNat ≤ 122 := by
  simp [Char.isLower, Char.toNat, UInt32.le_def, BitVec.le_def, UInt32.toNat]

theorem char_isUpper_iff (c : Char) : c.isUpper = true ↔ 65 ≤ c.toNat ∧ c.toNat ≤ 90 := by
  simp [Char.isUpper, Char.toNat, UInt32.le_def, BitVec.le_def, UInt32.toNat]

theorem char_ofNatAux_toNat (n : Nat) (h : n.isValidChar) : (Char.ofNatAux n h).toNat = n := by
  simp [Char.ofNatAux, Char.toNat, UInt32.toNat]

theorem toLower_isLower (c : Char) (h : c.isAlpha = true) : (c.toLower).isLower = true := by
  rw [Char.isAlpha, Bool.or_eq_true] at h
  rcases h with h | h
  · rw [char_isUpper_iff] at h
    rw [Char.toLower]
    have hcond : c.toNat ≥ 65 ∧ c.toNat ≤ 90 := ⟨h.1, h.2⟩
    rw [if_pos hcond]
    have hvalid : (c.toNat + 32).isValidChar := by
      left
      omega
    rw [Char.ofNat, dif_pos hvalid, char_isLower_iff, char_ofNatAux_toNat]
    omega
  · rw [char_isLower_iff] at h
    rw [Char.toLower]
    have hcond : ¬(c.toNat ≥ 65 ∧ c.toNat ≤ 90) := by omega
    rw [if_neg hcond]
    rw [char_isLower_iff]
    omega

theorem matchChoice_letter {s : List Char} {star : Bool} {g2 g3 : List Char}
    (h : matchChoice s = some (star, g2, g3)) : ∃ c, g2 = [c] ∧ c.isAlpha = true := by
  unfold matchChoice at h
  split at h
  · rename_i c tail
    cases hca : c.isAlpha with
    | true =>
        rw [if_pos hca] at h
        injection h with h'
        injection h' with h1 h2
        injection h2 with h3 h4
        exact ⟨c, h3.symm, hca⟩
    | false =>
        rw [if_neg (by simp [hca])] at h
        cases h
  · rename_i c tail hnm
    cases hca : c.isAlpha with
    | true =>
        rw [if_pos hca] at h
        injection h with h'
        injection h' with h1 h2
        injection h2 with h3 h4
        exact ⟨c, h3.symm, hca⟩
    | false =>
        rw [if_neg (by simp [hca])] at h
        cases h
  · cases h

/-- The letter-shape property of one record (claim C4): every choice letter
is one single lowercase character. -/
def LInv (q : Question) : Prop :=
  ∀ ch ∈ q.choices, ch.letter.length = 1 ∧ ∀ c ∈ ch.letter, c.isLower = true

/-- The letter-shape property lifted to the loop state. -/
def LSInv (st : PState) : Prop :=
  (∀ q ∈ st.questions, LInv q) ∧ ∀ cur, st.current = some cur → LInv cur

theorem linv_contStep {st : PState} {s : List Char} (h : LSInv st) : LSInv (contStep st s) := by
  cases hcur : st.current with
  | none =>
      rw [contStep_no_current hcur]
      exact h
  | some cur =>
      cases hlt : st.last_type with
      | start =>
          rw [contStep_start hcur hlt]
          exact h
      | question =>
          rw [contStep_question hcur hlt]
          refine ⟨h.1, ?_⟩
          intro cur' hcur'
          injection hcur' with he
          subst he
          intro ch hch
          exact h.2 cur hcur ch hch
      | choice =>
          rw [contStep_choice hcur hlt]
          cases hemp : cur.choices.isEmpty with
          | true =>
              rw [if_pos rfl]
              exact h
          | false =>
              rw [if_neg (by simp)]
              refine ⟨h.1, ?_⟩
              intro cur' hcur'
              injection hcur' with he
              subst he
              intro ch hch
              obtain ⟨ch', hch', hl⟩ := appendLastText_mem hch
              obtain ⟨hlen, hlow⟩ := h.2 cur hcur ch' hch'
              rw [hl]
              exact ⟨hlen, hlow⟩

theorem linv_processLine (stem fname : List Char) (st : PState) (line : List Char)
    (h : LSInv st) : LSInv (processLine stem fname st line) := by
  cases hemp : (stripChars line).isEmpty with
  | true =>
      rw [processLine_blank (List.isEmpty_iff.mp hemp)]
      exact h
  | false =>
      cases hmq : matchQuestion (stripChars line) with
      | some v =>
          obtain ⟨num, g2⟩ := v
          rw [processLine_header hmq]
          constructor
          · intro q hq
            rcases List.mem_append.mp hq with hq' | hq'
            · exact h.1 q hq'
            · cases hcur : st.current with
              | none => rw [hcur] at hq'; cases hq'
              | some cur =>
                  rw [hcur] at hq'
                  have he : q = cur := by simpa using hq'
                  subst he
                  exact h.2 q hcur
          · intro cur' hcur'
            injection hcur' with he
            subst he
            intro ch hch
            cases hch
      | none =>
          cases hmc : matchChoice (stripChars line) with
          | none =>
              rw [processLine_cont hemp hmq hmc]
              exact linv_contStep h
          | some v =>
              obtain ⟨star, g2, g3⟩ := v
              cases hcur : st.current with
              | none =>
                  rw [processLine_orphanChoice hmq hmc hcur]
                  exact h
              | some cur =>
                  rw [processLine_choiceStep hmq hmc hcur]
                  refine ⟨h.1, ?_⟩
                  intro cur' hcur'
                  injection hcur' with he
                  subst he
                  intro ch hch
                  rcases List.mem_append.mp hch with hch' | hch'
                  · exact h.2 cur hcur ch hch'
                  · obtain ⟨c, hc2, hca⟩ := matchChoice_letter hmc
                    have he2 : ch = ⟨g2.map Char.toLower, stripChars g3⟩ := by
                      simpa using hch'
                    subst he2
                    subst hc2
                    refine ⟨rfl, ?_⟩
                    intro d hd
                    have hde : d = c.toLower := by simpa using hd
                    subst hde
                    exact toLower_isLower c hca

theorem linv_foldl (stem fname : List Char) (lines : List (List Char)) :
    LSInv (lines.foldl (processLine stem fname) initState) := by
  suffices hgen : ∀ st, LSInv st → LSInv (lines.foldl (processLine stem fname) st) by
    refine hgen initState ⟨?_, ?_⟩
    · intro q hq
      cases hq
    · intro cur hcur
      cases hcur
  induction lines with
  | nil => intro st h; exact h
  | cons l t ih =>
      intro st h
      rw [List.foldl_cons]
      exact ih _ (linv_processLine stem fname st l h)

theorem linv_parse (stem fname : List Char) (lines : List (List Char)) :
    ∀ q ∈ parse_question_lines stem fname lines, LInv q := by
  intro q hq
  have hinv := linv_foldl stem fname lines
  rw [parse_question_lines_eq] at hq
  rcases List.mem_append.mp hq with hq' | hq'
  · exact hinv.1 q hq'
  · cases hcur : (lines.foldl (processLine stem fname) initState).current with
    | none => rw [hcur] at hq'; cases hq'
    | some cur =>
        rw [hcur] at hq'
        have he : q = cur := by simpa using hq'
        subst he
        exact hinv.2 q hcur

theorem parse_ids (stem fname : List Char) (lines : List (List Char)) :
    (parse_question_lines stem fname lines).map (fun q => q.id) =
      (lines.filterMap headerNum).map (fun n => stem ++ '_' :: n) := by
  have h := idsOf_foldl stem fname lines initState
  rw [parse_question_lines_eq, List.map_append]
  unfold idsOf at h
  simp only [initState, List.map_nil, Option.toList, List.nil_append] at h
  exact h

/-! Further loop-state facts used by claims C8 and C10. -/

theorem processLine_no_current_nonheader {stem fname : List Char} {st : PState} {line : List Char}
    (hcur : st.current = none) (hmq : matchQuestion (stripChars line) = none) :
    processLine stem fname st line = st := by
  cases hemp : (stripChars line).isEmpty with
  | true => exact processLine_blank (List.isEmpty_iff.mp hemp)
  | false =>
      cases hmc : matchChoice (stripChars line) with
      | some v =>
          obtain ⟨star, g2, g3⟩ := v
          exact processLine_orphanChoice hmq hmc hcur
      | none =>
          rw [processLine_cont hemp hmq hmc]
          exact contStep_no_current hcur

/-- The reachable-state property behind claim C10: after a choice line, the
open record exists and owns at least one choice. -/
def CInv (st : PState) : Prop :=
  st.last_type = .choice → ∃ cur, st.current = some cur ∧ cur.choices ≠ []

theorem contStep_last_type (st : PState) (s : List Char) :
    (contStep st s).last_type = st.last_type := by
  cases hcur : st.current with
  | none => rw [contStep_no_current hcur]
  | some cur =>
      cases hlt : st.last_type with
      | start => rw [contStep_start hcur hlt, hlt]
      | question => rw [contStep_question hcur hlt, hlt]
      | choice =>
          rw [contStep_choice hcur hlt, hlt]
          split
          · exact hlt
          · rfl

theorem cinv_contStep {st : PState} {s : List Char} (h : CInv st) : CInv (contStep st s) := by
  intro hlast
  rw [contStep_last_type] at hlast
  obtain ⟨cur, hcur, hne⟩ := h hlast
  rw [contStep_choice hcur hlast,
    if_neg (fun hemp => hne (List.isEmpty_iff.mp hemp))]
  refine ⟨_, rfl, ?_⟩
  intro habs
  apply hne
  have habs' : appendLastText cur.choices s = [] := habs
  have hl := appendLastText_length cur.choices s
  rw [habs'] at hl
  exact List.length_eq_zero.mp hl.symm

theorem cinv_processLine (stem fname : List Char) (st : PState) (line : List Char)
    (h : CInv st) : CInv (processLine stem fname st line) := by
  cases hemp : (stripChars line).isEmpty with
  | true =>
      rw [processLine_blank (List.isEmpty_iff.mp hemp)]
      exact h
  | false =>
      cases hmq : matchQuestion (stripChars line) with
      | some v =>
          obtain ⟨num, g2⟩ := v
          rw [processLine_header hmq]
          intro habs
          exact LastKind.noConfusion (show LastKind.question = LastKind.choice from habs)
      | none =>
          cases hmc : matchChoice (stripChars line) with
          | none =>
              rw [processLine_cont hemp hmq hmc]
              exact cinv_contStep h
          | some v =>
              obtain ⟨star, g2, g3⟩ := v
              cases hcur : st.current with
              | none =>
                  rw [processLine_orphanChoice hmq hmc hcur]
                  exact h
              | some cur =>
                  rw [processLine_choiceStep hmq hmc hcur]
                  intro _
                  exact ⟨_, rfl, by simp⟩

theorem cinv_foldl (stem fname : List Char) (lines : List (List Char)) :
    CInv (lines.foldl (processLine stem fname) initState) := by
  suffices hgen : ∀ st, CInv st → CInv (lines.foldl (processLine stem fname) st) by
    refine hgen initState ?_
    intro habs
    exact LastKind.noConfusion (show LastKind.start = LastKind.choice from habs)
  induction lines with
  | nil => intro st h; exact h
  | cons l t ih =>
      intro st h
      rw [List.foldl_cons]
      exact ih _ (cinv_processLine stem fname st l h)

/-! The serialization round trip (claim C9). -/

theorem wfChoice_parts {ch : Choice} (h : wfChoice ch = true) :
    ch.letter.isEmpty = false ∧ ch.letter.map Char.toLower = ch.letter ∧
      ch.text.isEmpty = false ∧ stripChars ch.text = ch.text := by
  unfold wfChoice at h
  simp only [Bool.and_eq_true, Bool.not_eq_true', beq_iff_eq] at h
  exact ⟨h.1.1.1, h.1.1.2, h.1.2, h.2⟩

theorem loadChoice_wf (ch : Choice) (h : wfChoice ch = true) :
    loadChoice (choiceToJson ch) = some (some ch) := by
  obtain ⟨h1, h2, h3, h4⟩ := wfChoice_parts h
  have hred : loadChoice (choiceToJson ch) =
      (if (ch.letter.map Char.toLower).isEmpty || (stripChars ch.text).isEmpty then some none
       else some (some { letter := ch.letter.map Char.toLower, text := stripChars ch.text })) := rfl
  rw [hred, h2, h4, h1, h3]
  rfl

theorem loadChoices_wf (cs : List Choice) (h : ∀ ch ∈ cs, wfChoice ch = true) :
    loadChoices (cs.map choiceToJson) = some cs := by
  induction cs with
  | nil => rfl
  | cons c t ih =>
      rw [List.map_cons]
      have hc := loadChoice_wf c (h c (List.mem_cons_self c t))
      have ht := ih (fun ch hch => h ch (List.mem_cons_of_mem c hch))
      simp only [loadChoices, hc, ht]

theorem lastIndexOfLetter_none (cs : List Choice) (l : List Char)
    (h : ∀ ch ∈ cs, ch.letter ≠ l) : lastIndexOfLetter cs l = none := by
  induction cs with
  | nil => rfl
  | cons c t ih =>
      have ht := ih (fun ch hch => h ch (List.mem_cons_of_mem c hch))
      simp only [lastIndexOfLetter, ht]
      rw [if_neg]
      simp [h c (List.mem_cons_self c t)]

theorem lastIndexOfLetter_nodup (cs : List Choice) (i : Nat)
    (hn : (cs.map (fun ch => ch.letter)).Nodup) (hi : i < cs.length) :
    lastIndexOfLetter cs ((cs.getD i defaultChoice).letter) = some i := by
  induction cs generalizing i with
  | nil => simp at hi
  | cons c t ih =>
      rw [List.map_cons, List.nodup_cons] at hn
      cases i with
      | zero =>
          have hgd0 : (c :: t).getD 0 defaultChoice = c := by simp
          rw [hgd0]
          have hnone : lastIndexOfLetter t c.letter = none := by
            apply lastIndexOfLetter_none
            intro ch hch habs
            exact hn.1 (habs ▸ List.mem_map_of_mem (fun ch => ch.letter) hch)
          simp only [lastIndexOfLetter, hnone]
          rw [if_pos (by simp)]
      | succ j =>
          have hj : j < t.length := by simpa using hi
          have ht := ih j hn.2 hj
          have hgd : ((c :: t).getD (j + 1) defaultChoice) = t.getD j defaultChoice := by simp
          rw [hgd]
          simp only [lastIndexOfLetter, ht]

theorem isEmpty_map_false {α β : Type} (f : α → β) {l : List α} (h : l.isEmpty = false) :
    (l.map f).isEmpty = false := by
  cases l with
  | nil => exact h
  | cons a t => rfl

theorem wfQuestion_parts {q : Question} (h : wfQuestion q = true) :
    q.question.isEmpty = false ∧ stripChars q.question = q.question ∧
      q.choices.isEmpty = false ∧ (∀ ch ∈ q.choices, wfChoice ch = true) ∧
      (q.choices.map (fun ch => ch.letter)).Nodup ∧ wfCorrect q = true := by
  unfold wfQuestion at h
  simp only [Bool.and_eq_true, Bool.not_eq_true', beq_iff_eq, decide_eq_true_eq,
    List.all_eq_true] at h
  exact ⟨h.1.1.1.1.1, h.1.1.1.1.2, h.1.1.1.2, h.1.1.2, h.1.2, h.2⟩

theorem loadCard_wf (q : Question) (h : wfQuestion q = true) :
    loadCard (questionToJson q) = some (some (cardOfQuestion q)) := by
  obtain ⟨hqne, hqstrip, hcne, hall, hnodup, hcorr⟩ := wfQuestion_parts h
  have hmape : (q.choices.map choiceToJson).isEmpty = false := isEmpty_map_false _ hcne
  cases hci : q.correct_index with
  | none =>
      cases hcl : q.correct_letter with
      | some l =>
          unfold wfCorrect at hcorr
          rw [hci, hcl] at hcorr
          simp at hcorr
      | none =>
          have hqj : questionToJson q = Json.obj
              [(kId, .str q.id), (kSourceFile, .str q.source_file),
               (kQuestion, .str q.question),
               (kChoices, .arr (q.choices.map choiceToJson)),
               (kCorrectLetter, .null), (kCorrectIndex, .null)] := by
            simp only [questionToJson, hcl, hci]
          rw [hqj]
          have hred : loadCard (Json.obj
              [(kId, .str q.id), (kSourceFile, .str q.source_file),
               (kQuestion, .str q.question),
               (kChoices, .arr (q.choices.map choiceToJson)),
               (kCorrectLetter, .null), (kCorrectIndex, .null)]) =
            (if (stripChars q.question).isEmpty || (q.choices.map choiceToJson).isEmpty
             then some none
             else match loadChoices (q.choices.map choiceToJson) with
              | none => none
              | some norm =>
                  if norm.isEmpty then some none
                  else some (some
                    { id := some q.id, source_file := some q.source_file,
                      question := stripChars q.question, choices := norm,
                      correct_letter := none, correct_index := none })) := rfl
          rw [hred, hqstrip, hqne, hmape]
          simp only [Bool.or_self, if_false, loadChoices_wf q.choices hall, hcne]
          simp [cardOfQuestion, hci, hcl, hqstrip]
  | some i =>
      cases hcl : q.correct_letter with
      | none =>
          unfold wfCorrect at hcorr
          rw [hci, hcl] at hcorr
          simp at hcorr
      | some l =>
          unfold wfCorrect at hcorr
          rw [hci, hcl] at hcorr
          simp only [Bool.and_eq_true, decide_eq_true_eq, beq_iff_eq] at hcorr
          obtain ⟨hlen, hlet⟩ := hcorr
          have hmem : q.choices.getD i defaultChoice ∈ q.choices := by
            rw [List.getD_eq_getElem q.choices defaultChoice hlen]
            exact List.getElem_mem hlen
          obtain ⟨hle, hlmap0, _, _⟩ := wfChoice_parts (hall _ hmem)
          rw [hlet] at hle hlmap0
          have hidx : lastIndexOfLetter q.choices l = some i := by
            rw [show l = (q.choices.getD i defaultChoice).letter from hlet.symm]
            exact lastIndexOfLetter_nodup q.choices i hnodup hlen
          have hqj : questionToJson q = Json.obj
              [(kId, .str q.id), (kSourceFile, .str q.source_file),
               (kQuestion, .str q.question),
               (kChoices, .arr (q.choices.map choiceToJson)),
               (kCorrectLetter, .str l), (kCorrectIndex, .num (i : Int))] := by
            simp only [questionToJson, hcl, hci]
          rw [hqj]
          have hred : loadCard (Json.obj
              [(kId, .str q.id), (kSourceFile, .str q.source_file),
               (kQuestion, .str q.question),
               (kChoices, .arr (q.choices.map choiceToJson)),
               (kCorrectLetter, .str l), (kCorrectIndex, .num (i : Int))]) =
            (if (stripChars q.question).isEmpty || (q.choices.map choiceToJson).isEmpty
             then some none
             else match loadChoices (q.choices.map choiceToJson) with
              | none => none
              | some norm =>
                  if norm.isEmpty then some none
                  else some (some
                    { id := some q.id, source_file := some q.source_file,
                      question := stripChars q.question, choices := norm,
                      correct_letter :=
                        if (l.map Char.toLower).isEmpty then none else some (l.map Char.toLower),
                      correct_index :=
                        match (if (l.map Char.toLower).isEmpty then none
                               else some (l.map Char.toLower) : Option (List Char)) with
                        | none => none
                        | some l2 => lastIndexOfLetter norm l2 })) := rfl
          rw [hred, hqstrip, hqne, hmape, hlmap0, hle]
          simp only [Bool.or_self, if_false, loadChoices_wf q.choices hall, hcne, hidx]
          simp [cardOfQuestion, hci, hcl, hqstrip, hidx]

theorem loadCards_wf (qs : List Question) (h : ∀ q ∈ qs, wfQuestion q = true) :
    loadCards (qs.map questionToJson) = some (qs.map cardOfQuestion) := by
  induction qs with
  | nil => rfl
  | cons q t ih =>
      rw [List.map_cons, List.map_cons]
      have hq := loadCard_wf q (h q (List.mem_cons_self q t))
      have ht := ih (fun x hx => h x (List.mem_cons_of_mem q hx))
      simp only [loadCards, hq, ht]

/-! The ten claims. -/

/-- C1: a well-formed single-question input "1. Q\na. x\n*b. y\nc. z\n"
parses to exactly one record with question Q, the three choices in order of
appearance, correct_letter "b" and correct_index 1. -/
theorem claim_C1 (stem fname Q x y z : List Char)
    (hQ : LineText Q) (hx : LineText x) (hy : LineText y) (hz : LineText z) :
    parse_question_file stem fname
      ((['1', '.', ' '] ++ Q) ++ '\n' :: ((['a', '.', ' '] ++ x) ++ '\n' ::
        ((['*', 'b', '.', ' '] ++ y) ++ '\n' :: ((['c', '.', ' '] ++ z) ++ ['\n'])))) =
      [{ id := stem ++ ['_', '1'], source_file := fname, question := Q,
         choices := [⟨['a'], x⟩, ⟨['b'], y⟩, ⟨['c'], z⟩],
         correct_letter := some ['b'], correct_index := some 1 }] := by
  obtain ⟨hQne, hQbf, hQtr⟩ := hQ
  obtain ⟨hxne, hxbf, hxtr⟩ := hx
  obtain ⟨hyne, hybf, hytr⟩ := hy
  obtain ⟨hzne, hzbf, hztr⟩ := hz
  have h1 : ∀ c ∈ ['1', '.', ' '] ++ Q, isLineBreak c = false :=
    List.forall_mem_append.mpr ⟨by decide, hQbf⟩
  have h2 : ∀ c ∈ ['a', '.', ' '] ++ x, isLineBreak c = false :=
    List.forall_mem_append.mpr ⟨by decide, hxbf⟩
  have h3 : ∀ c ∈ ['*', 'b', '.', ' '] ++ y, isLineBreak c = false :=
    List.forall_mem_append.mpr ⟨by decide, hybf⟩
  have h4 : ∀ c ∈ ['c', '.', ' '] ++ z, isLineBreak c = false :=
    List.forall_mem_append.mpr ⟨by decide, hzbf⟩
  unfold parse_question_file
  rw [splitlines_line _ _ h1, splitlines_line _ _ h2, splitlines_line _ _ h3]
  rw [show (['c', '.', ' '] ++ z) ++ ['\n'] = (['c', '.', ' '] ++ z) ++ '\n' :: [] from rfl]
  rw [splitlines_line _ _ h4, splitlines_nil]
  rw [List.map_cons, List.map_cons, List.map_cons, List.map_cons, List.map_nil]
  rw [rstripNewline_eq_self h1, rstripNewline_eq_self h2, rstripNewline_eq_self h3,
    rstripNewline_eq_self h4]
  have hs1 : stripChars (['1', '.', ' '] ++ Q) = ['1', '.', ' '] ++ Q :=
    strip_line '1' ['.', ' '] Q (by decide) hQtr hQne
  have hs2 : stripChars (['a', '.', ' '] ++ x) = ['a', '.', ' '] ++ x :=
    strip_line 'a' ['.', ' '] x (by decide) hxtr hxne
  have hs3 : stripChars (['*', 'b', '.', ' '] ++ y) = ['*', 'b', '.', ' '] ++ y :=
    strip_line '*' ['b', '.', ' '] y (by decide) hytr hyne
  have hs4 : stripChars (['c', '.', ' '] ++ z) = ['c', '.', ' '] ++ z :=
    strip_line 'c' ['.', ' '] z (by decide) hztr hzne
  have hm1 : matchQuestion (stripChars (['1', '.', ' '] ++ Q)) = some (['1'], Q) := by
    rw [hs1]
    rw [show ['1', '.', ' '] ++ Q = ['1'] ++ '.' :: (' ' :: Q) from rfl]
    rw [matchQuestion_header ['1'] (' ' :: Q) (by decide) (by decide),
      dropWhile_space_trimmed hQtr]
  have hmq2 : matchQuestion (stripChars (['a', '.', ' '] ++ x)) = none := by
    rw [hs2]; exact matchQuestion_nondigit _ (by decide)
  have hmq3 : matchQuestion (stripChars (['*', 'b', '.', ' '] ++ y)) = none := by
    rw [hs3]; exact matchQuestion_nondigit _ (by decide)
  have hmq4 : matchQuestion (stripChars (['c', '.', ' '] ++ z)) = none := by
    rw [hs4]; exact matchQuestion_nondigit _ (by decide)
  have hmc2 : matchChoice (stripChars (['a', '.', ' '] ++ x)) = some (false, ['a'], x) := by
    rw [hs2]
    rw [show matchChoice (['a', '.', ' '] ++ x) = some (false, ['a'], (' ' :: x).dropWhile isWS) from rfl]
    rw [dropWhile_space_trimmed hxtr]
  have hmc3 : matchChoice (stripChars (['*', 'b', '.', ' '] ++ y)) = some (true, ['b'], y) := by
    rw [hs3]
    rw [show matchChoice (['*', 'b', '.', ' '] ++ y) = some (true, ['b'], (' ' :: y).dropWhile isWS) from rfl]
    rw [dropWhile_space_trimmed hytr]
  have hmc4 : matchChoice (stripChars (['c', '.', ' '] ++ z)) = some (false, ['c'], z) := by
    rw [hs4]
    rw [show matchChoice (['c', '.', ' '] ++ z) = some (false, ['c'], (' ' :: z).dropWhile isWS) from rfl]
    rw [dropWhile_space_trimmed hztr]
  unfold parse_question_lines
  rw [List.foldl_cons, List.foldl_cons, List.foldl_cons, List.foldl_cons, List.foldl_nil]
  rw [processLine_header hm1]
  rw [processLine_choiceStep hmq2 hmc2 rfl]
  rw [processLine_choiceStep hmq3 hmc3 rfl]
  rw [processLine_choiceStep hmq4 hmc4 rfl]
  simp [initState, stripChars_eq_self hQtr, stripChars_eq_self hxtr,
    stripChars_eq_self hytr, stripChars_eq_self hztr]

/-- Witness for C1 at Q = "Q", x = "x", y = "y", z = "z". -/
theorem claim_C1_witness :
    (LineText ['Q'] ∧ LineText ['x'] ∧ LineText ['y'] ∧ LineText ['z']) ∧
    parse_question_file ['f'] ['f', '.', 't', 'x', 't']
      ((['1', '.', ' '] ++ ['Q']) ++ '\n' :: ((['a', '.', ' '] ++ ['x']) ++ '\n' ::
        ((['*', 'b', '.', ' '] ++ ['y']) ++ '\n' :: ((['c', '.', ' '] ++ ['z']) ++ ['\n'])))) =
      [{ id := ['f'] ++ ['_', '1'], source_file := ['f', '.', 't', 'x', 't'], question := ['Q'],
         choices := [⟨['a'], ['x']⟩, ⟨['b'], ['y']⟩, ⟨['c'], ['z']⟩],
         correct_letter := some ['b'], correct_index := some 1 }] :=
  ⟨⟨by decide, by decide, by decide, by decide⟩,
    claim_C1 ['f'] ['f', '.', 't', 'x', 't'] ['Q'] ['x'] ['y'] ['z']
      (by decide) (by decide) (by decide) (by decide)⟩

/-- C2: a present correct_index of any emitted record is a valid position
in choices whose letter is correct_letter, and the consistency is preserved
by every builder step (including continuation appends). -/
theorem claim_C2 :
    (∀ stem fname st line, SInv st → SInv (processLine stem fname st line)) ∧
    ∀ stem fname text q, q ∈ parse_question_file stem fname text → QInv q := by
  constructor
  · exact fun stem fname st line h => sinv_processLine stem fname st line h
  · intro stem fname text q hq
    exact qinv_parse stem fname ((splitlines text).map rstripNewline) q hq

/-- Witness for C2 on the record parsed from "1. Q\na. x\n*b. y\n". -/
theorem claim_C2_witness :
    SInv (processLine ['f'] ['g'] initState (("1. Q").toList)) ∧
    (({ id := ['f', '_', '1'], source_file := ['f', '.', 't', 'x', 't'], question := ['Q'],
        choices := [⟨['a'], ['x']⟩, ⟨['b'], ['y']⟩],
        correct_letter := some ['b'], correct_index := some 1 } : Question)
      ∈ parse_question_file ['f'] ['f', '.', 't', 'x', 't'] (("1. Q\na. x\n*b. y\n").toList) ∧
      QInv { id := ['f', '_', '1'], source_file := ['f', '.', 't', 'x', 't'], question := ['Q'],
             choices := [⟨['a'], ['x']⟩, ⟨['b'], ['y']⟩],
             correct_letter := some ['b'], correct_index := some 1 }) :=
  ⟨claim_C2.1 ['f'] ['g'] initState (("1. Q").toList) sinv_init,
    by decide,
    claim_C2.2 ['f'] ['f', '.', 't', 'x', 't'] (("1. Q\na. x\n*b. y\n").toList) _ (by decide)⟩

/-- C3 as amended: ids are stem_<header-number> with the number taken
verbatim from the header line, so ids within one file are pairwise distinct
exactly when the header numbers of its header lines are; pairwise-distinct
header numbers give pairwise-distinct ids. -/
theorem claim_C3 (stem fname text : List Char)
    (h : (((splitlines text).map rstripNewline).filterMap headerNum).Nodup) :
    ((parse_question_file stem fname text).map (fun q => q.id)).Nodup := by
  unfold parse_question_file
  rw [parse_ids]
  refine h.map ?_
  intro a b hab
  have h2 := List.append_cancel_left hab
  injection h2

/-- Witness for C3 on "1. A\n2. B\n". -/
theorem claim_C3_witness :
    ((((splitlines (("1. A\n2. B\n").toList)).map rstripNewline).filterMap headerNum).Nodup) ∧
    ((parse_question_file ['f'] ['f', '.', 't', 'x', 't'] (("1. A\n2. B\n").toList)).map
      (fun q => q.id)).Nodup :=
  ⟨by decide, claim_C3 ['f'] ['f', '.', 't', 'x', 't'] (("1. A\n2. B\n").toList) (by decide)⟩

/-- C3 fails as stated: the file "1. A\n1. B\n" reuses header number 1, and
the two records get the same id f_1. -/
theorem claim_C3_counterexample :
    ¬ List.Pairwise (fun a b => a ≠ b)
      ((parse_question_file ['f'] ['f', '.', 't', 'x', 't'] (("1. A\n1. B\n").toList)).map
        (fun q => q.id)) := by
  decide

/-- C7: every header opens a record and every open record is finalized, so
the number of emitted records equals the number of header lines; in
particular a file that ends right after a header yields one record with an
empty choices list. -/
theorem claim_C7 :
    (∀ stem fname lines, (parse_question_lines stem fname lines).length =
      (lines.filterMap headerNum).length) ∧
    ∀ stem fname Q, LineText Q →
      parse_question_file stem fname ((['1', '.', ' '] ++ Q) ++ ['\n']) =
        [{ id := stem ++ ['_', '1'], source_file := fname, question := Q, choices := [],
           correct_letter := none, correct_index := none }] := by
  constructor
  · intro stem fname lines
    have h := congrArg List.length (parse_ids stem fname lines)
    simpa using h
  · intro stem fname Q hQ
    obtain ⟨hQne, hQbf, hQtr⟩ := hQ
    have h1 : ∀ c ∈ ['1', '.', ' '] ++ Q, isLineBreak c = false :=
      List.forall_mem_append.mpr ⟨by decide, hQbf⟩
    unfold parse_question_file
    rw [show (['1', '.', ' '] ++ Q) ++ ['\n'] = (['1', '.', ' '] ++ Q) ++ '\n' :: [] from rfl]
    rw [splitlines_line _ _ h1, splitlines_nil, List.map_cons, List.map_nil,
      rstripNewline_eq_self h1]
    have hs1 : stripChars (['1', '.', ' '] ++ Q) = ['1', '.', ' '] ++ Q :=
      strip_line '1' ['.', ' '] Q (by decide) hQtr hQne
    have hm1 : matchQuestion (stripChars (['1', '.', ' '] ++ Q)) = some (['1'], Q) := by
      rw [hs1]
      rw [show ['1', '.', ' '] ++ Q = ['1'] ++ '.' :: (' ' :: Q) from rfl]
      rw [matchQuestion_header ['1'] (' ' :: Q) (by decide) (by decide),
        dropWhile_space_trimmed hQtr]
    unfold parse_question_lines
    rw [List.foldl_cons, List.foldl_nil, processLine_header hm1]
    simp [initState, stripChars_eq_self hQtr]

/-- Witness for C7 at Q = "Q". -/
theorem claim_C7_witness :
    (parse_question_lines ['f'] ['g'] [("1. Q").toList, ("a. x").toList]).length =
      ([("1. Q").toList, ("a. x").toList].filterMap headerNum).length ∧
    (LineText ['Q'] ∧
      parse_question_file ['f'] ['g'] ((['1', '.', ' '] ++ ['Q']) ++ ['\n']) =
        [{ id := ['f'] ++ ['_', '1'], source_file := ['g'], question := ['Q'], choices := [],
           correct_letter := none, correct_index := none }]) :=
  ⟨claim_C7.1 ['f'] ['g'] [("1. Q").toList, ("a. x").toList],
    by decide, claim_C7.2 ['f'] ['g'] ['Q'] (by decide)⟩

/-- C8: a leading line that is not a question header (an orphan choice or
continuation line, arriving while no record is open) is silently dropped
and parsing continues with the remaining text unchanged. -/
theorem claim_C8 (stem fname line rest : List Char)
    (hbf : ∀ c ∈ line, isLineBreak c = false)
    (hmq : matchQuestion (stripChars line) = none) :
    parse_question_file stem fname (line ++ '\n' :: rest) =
      parse_question_file stem fname rest := by
  unfold parse_question_file
  rw [splitlines_line _ _ hbf, List.map_cons, rstripNewline_eq_self hbf]
  unfold parse_question_lines
  rw [List.foldl_cons, processLine_no_current_nonheader rfl hmq]

/-- Witness for C8 with the orphan choice line "a. orphan". -/
theorem claim_C8_witness :
    ((∀ c ∈ ("a. orphan").toList, isLineBreak c = false) ∧
      matchQuestion (stripChars (("a. orphan").toList)) = none) ∧
    parse_question_file ['f'] ['g'] (("a. orphan").toList ++ '\n' :: ("1. Q\na. x\n").toList) =
      parse_question_file ['f'] ['g'] (("1. Q\na. x\n").toList) :=
  ⟨⟨by decide, by decide⟩,
    claim_C8 ['f'] ['g'] (("a. orphan").toList) (("1. Q\na. x\n").toList) (by decide) (by decide)⟩

/-- C10: whenever the loop state records "choice" as the last classified
line, the open record exists and has a nonempty choices list, so the
continuation append to the last choice is always well-defined and its
emptiness guard never changes the outcome. -/
theorem claim_C10 (stem fname : List Char) (lines : List (List Char))
    (hlast : (lines.foldl (processLine stem fname) initState).last_type = .choice) :
    ∃ cur, (lines.foldl (processLine stem fname) initState).current = some cur ∧
      cur.choices ≠ [] ∧
      ∀ s, contStep (lines.foldl (processLine stem fname) initState) s =
        { lines.foldl (processLine stem fname) initState with
          current := some { cur with choices := appendLastText cur.choices s } } := by
  obtain ⟨cur, hcur, hne⟩ := cinv_foldl stem fname lines hlast
  refine ⟨cur, hcur, hne, ?_⟩
  intro s
  rw [contStep_choice hcur hlast,
    if_neg (fun hemp => hne (List.isEmpty_iff.mp hemp))]

/-- Witness for C10 after "1. Q" then "a. x". -/
theorem claim_C10_witness :
    ([("1. Q").toList, ("a. x").toList].foldl (processLine ['f'] ['g']) initState).last_type
        = .choice ∧
    ∃ cur, ([("1. Q").toList, ("a. x").toList].foldl (processLine ['f'] ['g'])
        initState).current = some cur ∧
      cur.choices ≠ [] ∧
      ∀ s, contStep ([("1. Q").toList, ("a. x").toList].foldl (processLine ['f'] ['g'])
          initState) s =
        { [("1. Q").toList, ("a. x").toList].foldl (processLine ['f'] ['g']) initState with
          current := some { cur with choices := appendLastText cur.choices s } } :=
  ⟨by decide, claim_C10 ['f'] ['g'] [("1. Q").toList, ("a. x").toList] (by decide)⟩

/-- C4 as amended: every choice letter of every emitted record is a single
lowercase alphabetic character, but letters are not deduplicated: a
duplicated letter in the input yields two choices with the same letter, so
uniqueness within one record does not hold in general. -/
theorem claim_C4 (stem fname text : List Char) (q : Question) (ch : Choice)
    (hq : q ∈ parse_question_file stem fname text) (hch : ch ∈ q.choices) :
    ch.letter.length = 1 ∧ ∀ c ∈ ch.letter, c.isLower = true :=
  linv_parse stem fname ((splitlines text).map rstripNewline) q hq ch hch

/-- Witness for C4 on the record parsed from "1. Q\na. x\n*b. y\n". -/
theorem claim_C4_witness :
    (({ id := ['f', '_', '1'], source_file := ['g'], question := ['Q'],
        choices := [⟨['a'], ['x']⟩, ⟨['b'], ['y']⟩],
        correct_letter := some ['b'], correct_index := some 1 } : Question)
        ∈ parse_question_file ['f'] ['g'] (("1. Q\na. x\n*b. y\n").toList) ∧
      (⟨['b'], ['y']⟩ : Choice) ∈
        [(⟨['a'], ['x']⟩ : Choice), ⟨['b'], ['y']⟩]) ∧
    ((⟨['b'], ['y']⟩ : Choice).letter.length = 1 ∧
      ∀ c ∈ (⟨['b'], ['y']⟩ : Choice).letter, c.isLower = true) :=
  ⟨⟨by decide, by decide⟩,
    claim_C4 ['f'] ['g'] (("1. Q\na. x\n*b. y\n").toList)
      { id := ['f', '_', '1'], source_file := ['g'], question := ['Q'],
        choices := [⟨['a'], ['x']⟩, ⟨['b'], ['y']⟩],
        correct_letter := some ['b'], correct_index := some 1 }
      ⟨['b'], ['y']⟩ (by decide) (by decide)⟩

/-- C4 fails as stated: in "1. Q\na. x\na. y\n" the letter a is used twice
and the single emitted record carries two choices with the same letter. -/
theorem claim_C4_counterexample :
    ¬ ∀ q ∈ parse_question_file ['f'] ['f', '.', 't', 'x', 't'] (("1. Q\na. x\na. y\n").toList),
        (q.choices.map (fun ch => ch.letter)).Nodup := by
  decide

/-- C5: a non-blank line matching neither pattern extends the question text
when the last classified line was a header, extends the last choice's text
when it was a choice line, and the example "1. Q part1\npart2\na. opt
part1\npart2\n" folds to question "Q part1 part2" and choice text "opt
part1 part2". -/
theorem claim_C5 :
    (∀ stem fname st line cur, st.current = some cur → st.last_type = .question →
      (stripChars line).isEmpty = false → matchQuestion (stripChars line) = none →
      matchChoice (stripChars line) = none →
      processLine stem fname st line =
        { st with current := some { cur with question := cur.question ++ ' ' :: stripChars line } }) ∧
    (∀ stem fname st line cur cs lastc, st.current = some cur → st.last_type = .choice →
      cur.choices = cs ++ [lastc] →
      (stripChars line).isEmpty = false → matchQuestion (stripChars line) = none →
      matchChoice (stripChars line) = none →
      processLine stem fname st line =
        { st with current := some { cur with
            choices := cs ++ [{ lastc with text := lastc.text ++ ' ' :: stripChars line }] } }) ∧
    ∀ stem fname, parse_question_file stem fname (("1. Q part1\npart2\na. opt part1\npart2\n").toList) =
      [{ id := stem ++ ['_', '1'], source_file := fname, question := ("Q part1 part2").toList,
         choices := [⟨['a'], ("opt part1 part2").toList⟩],
         correct_letter := none, correct_index := none }] := by
  refine ⟨?_, ?_, ?_⟩
  · intro stem fname st line cur hcur hlt hne hmq hmc
    rw [processLine_cont hne hmq hmc, contStep_question hcur hlt]
  · intro stem fname st line cur cs lastc hcur hlt hcs hne hmq hmc
    rw [processLine_cont hne hmq hmc, contStep_choice hcur hlt,
      if_neg (by simp [hcs]), hcs, appendLastText_concat]
  · intro stem fname
    rfl

/-- Witness for C5: both continuation steps at an explicit state and the
concrete example at stem f. -/
theorem claim_C5_witness :
    (processLine ['f'] ['g']
        { questions := [],
          current := some
            { id := ['f', '_', '1'], source_file := ['g'], question := ['Q'],
              choices := [], correct_letter := none, correct_index := none },
          last_type := .question } (("more").toList) =
      { questions := ([] : List Question),
        current := some
          { id := ['f', '_', '1'], source_file := ['g'],
            question := ['Q'] ++ ' ' :: stripChars (("more").toList),
            choices := [], correct_letter := none, correct_index := none },
        last_type := .question }) ∧
    (processLine ['f'] ['g']
        { questions := [],
          current := some
            { id := ['f', '_', '1'], source_file := ['g'], question := ['Q'],
              choices := [⟨['a'], ['x']⟩], correct_letter := none, correct_index := none },
          last_type := .choice } (("more").toList) =
      { questions := ([] : List Question),
        current := some
          { id := ['f', '_', '1'], source_file := ['g'], question := ['Q'],
            choices := [] ++ [{ letter := ['a'], text := ['x'] ++ ' ' :: stripChars (("more").toList) }],
            correct_letter := none, correct_index := none },
        last_type := .choice }) ∧
    parse_question_file ['f'] ['g'] (("1. Q part1\npart2\na. opt part1\npart2\n").toList) =
      [{ id := ['f'] ++ ['_', '1'], source_file := ['g'], question := ("Q part1 part2").toList,
         choices := [⟨['a'], ("opt part1 part2").toList⟩],
         correct_letter := none, correct_index := none }] :=
  ⟨claim_C5.1 ['f'] ['g'] _ (("more").toList) _ rfl rfl (by decide) (by decide) (by decide),
    claim_C5.2.1 ['f'] ['g'] _ (("more").toList) _ [] ⟨['a'], ['x']⟩ rfl rfl rfl
      (by decide) (by decide) (by decide),
    claim_C5.2.2 ['f'] ['g']⟩

/-- C6: a starred choice line always overwrites correct_letter and
correct_index with its own letter and freshly assigned index, so the last
marker wins; "1. Q\n*a. x\n*b. y\n" ends with correct_letter b and
correct_index 1. -/
theorem claim_C6 :
    (∀ stem fname st line cur g2 g3, st.current = some cur →
      matchQuestion (stripChars line) = none →
      matchChoice (stripChars line) = some (true, g2, g3) →
      processLine stem fname st line =
        { st with
          current := some
            { cur with
              choices := cur.choices ++ [⟨g2.map Char.toLower, stripChars g3⟩],
              correct_letter := some (g2.map Char.toLower),
              correct_index := some cur.choices.length },
          last_type := .choice }) ∧
    ∀ stem fname, parse_question_file stem fname (("1. Q\n*a. x\n*b. y\n").toList) =
      [{ id := stem ++ ['_', '1'], source_file := fname, question := ['Q'],
         choices := [⟨['a'], ['x']⟩, ⟨['b'], ['y']⟩],
         correct_letter := some ['b'], correct_index := some 1 }] := by
  constructor
  · intro stem fname st line cur g2 g3 hcur hmq hmc
    rw [processLine_choiceStep hmq hmc hcur]
    rfl
  · intro stem fname
    rfl

/-- Witness for C6: the overwrite step at a state already marked at index 0
and the concrete two-marker example. -/
theorem claim_C6_witness :
    (processLine ['f'] ['g']
        { questions := [],
          current := some
            { id := ['f', '_', '1'], source_file := ['g'], question := ['Q'],
              choices := [⟨['a'], ['x']⟩], correct_letter := some ['a'], correct_index := some 0 },
          last_type := .choice } (("*b. y").toList) =
      { questions := ([] : List Question),
        current := some
          { id := ['f', '_', '1'], source_file := ['g'], question := ['Q'],
            choices := [⟨['a'], ['x']⟩] ++ [⟨(['b'].map Char.toLower), stripChars (("y").toList)⟩],
            correct_letter := some (['b'].map Char.toLower),
            correct_index := some ([(⟨['a'], ['x']⟩ : Choice)].length) },
        last_type := .choice }) ∧
    parse_question_file ['f'] ['g'] (("1. Q\n*a. x\n*b. y\n").toList) =
      [{ id := ['f'] ++ ['_', '1'], source_file := ['g'], question := ['Q'],
         choices := [⟨['a'], ['x']⟩, ⟨['b'], ['y']⟩],
         correct_letter := some ['b'], correct_index := some 1 }] :=
  ⟨claim_C6.1 ['f'] ['g'] _ (("*b. y").toList) _ ['b'] (("y").toList) rfl
      (by decide) (by decide),
    claim_C6.2 ['f'] ['g']⟩

/-- C9 as amended: serializing then deserializing reproduces a corpus
field-for-field (absent correctness fields staying absent) whenever the
corpus is nonempty and each record has a nonempty trimmed question, a
nonempty choices list with nonempty trimmed texts and lowercase letters
that are unique within the record, and correctness fields absent together
or consistently addressing a choice; outside those conditions the loader
normalizes (duplicate letters remap correct_index to the last occurrence,
degenerate records are dropped, an empty result raises). -/
theorem claim_C9 (corpus : List Question) (hne : corpus ≠ [])
    (h : ∀ q ∈ corpus, wfQuestion q = true) :
    load_cards_from_json (save_questions_to_json corpus) =
      some (corpus.map cardOfQuestion) := by
  unfold load_cards_from_json save_questions_to_json
  have hl := loadCards_wf corpus h
  simp only [hl]
  have hm : (corpus.map cardOfQuestion).isEmpty = false := by
    cases corpus with
    | nil => exact absurd rfl hne
    | cons a t => rfl
  simp [hm]

/-- Witness for C9 on the corpus parsed from "1. Q\na. x\n*b. y\nc. z\n". -/
theorem claim_C9_witness :
    ((parse_question_file ['f'] ['g'] (("1. Q\na. x\n*b. y\nc. z\n").toList) ≠ [] ∧
      ∀ q ∈ parse_question_file ['f'] ['g'] (("1. Q\na. x\n*b. y\nc. z\n").toList),
        wfQuestion q = true) ∧
    load_cards_from_json (save_questions_to_json
        (parse_question_file ['f'] ['g'] (("1. Q\na. x\n*b. y\nc. z\n").toList))) =
      some ((parse_question_file ['f'] ['g'] (("1. Q\na. x\n*b. y\nc. z\n").toList)).map
        cardOfQuestion)) :=
  ⟨⟨by decide, by decide⟩,
    claim_C9 (parse_question_file ['f'] ['g'] (("1. Q\na. x\n*b. y\nc. z\n").toList))
      (by decide) (by decide)⟩

/-- C9 fails as stated: the parsed corpus of "1. Q\n*a. x\na. y\n" marks
index 0, but deserialization rebuilds correct_index through a last-wins
letter map and returns index 1, so the round trip is not the identity. -/
theorem claim_C9_counterexample :
    load_cards_from_json (save_questions_to_json
        (parse_question_file ['f'] ['f', '.', 't', 'x', 't'] (("1. Q\n*a. x\na. y\n").toList))) ≠
      some ((parse_question_file ['f'] ['f', '.', 't', 'x', 't']
        (("1. Q\n*a. x\na. y\n").toList)).map cardOfQuestion) := by
  decide

end Flashcards
